import Mathlib

/-!
Verification of the SSL certificate generation engine of scf-secret-generator
(`ssl/ssl.go`), shallowly embedded in Lean 4.

Go maps (`map[string][]byte`, `map[string]CertInfo`) are modelled as
association lists with a total lookup returning the Go zero value for a
missing key, matching Go's indexing semantics.  External collaborators
(cfssl's `initca.New`, `csr.Generator.ProcessRequest`, PEM parsing, signer
construction and signing, and `html/template` parsing/execution) are modelled
as an oracle record of fallible functions; the engine's own control flow,
state mutation and error propagation are transcribed from the source.  Every
operation additionally returns a trace of the externally observable events it
performs (builder invocations, capability calls, secret-store writes).
-/

namespace ScfSsl

/-- Byte strings (`[]byte`), as lists of natural numbers. -/
abbrev Bytes := List Nat

/-- `CertInfo` from ssl.go: all information required to generate an SSL cert. -/
structure CertInfo where
  privateKeyName : String := ""
  certificateName : String := ""
  isAuthority : Bool := false
  subjectNames : List String := []
  roleName : String := ""
  certificate : Bytes := []
  privateKey : Bytes := []
deriving DecidableEq, Repr, Inhabited

/-- Total lookup in an association list, returning a default for a missing
key; this is Go's map indexing (missing keys yield the zero value). -/
def mapGet (dflt : β) : List (String × β) → String → β
  | [], _ => dflt
  | (k, v) :: rest, n => if k = n then v else mapGet dflt rest n

/-- Go map assignment: replace the first binding of the key, or append a new
binding.  Maps built only through `mapSet` bind each key once. -/
def mapSet : List (String × β) → String → β → List (String × β)
  | [], k, v => [(k, v)]
  | (k', v') :: rest, k, v =>
    if k' = k then (k, v) :: rest else (k', v') :: mapSet rest k v

/-- The secret store: `secrets.Data`, a `map[string][]byte`. -/
abbrev Store := List (String × Bytes)

/-- The registry: the `map[string]CertInfo` accumulated by `RecordCertInfo`. -/
abbrev Registry := List (String × CertInfo)

def getBytes (s : Store) (n : String) : Bytes := mapGet [] s n

def setBytes (s : Store) (n : String) (v : Bytes) : Store := mapSet s n v

def getInfo (reg : Registry) (id : String) : CertInfo := mapGet {} reg id

def setInfo (reg : Registry) (id : String) (v : CertInfo) : Registry := mapSet reg id v

/-- `defaultCA` from ssl.go. -/
def defaultCA : String := "cacert"

/-- The parts of cfssl's `csr.CertificateRequest` the engine sets per call:
the Common Name and the host (SAN) list.  The remaining fields (CA expiry,
the fixed 4096-bit RSA key request) are constants in the source. -/
structure CertificateRequest where
  cn : String := ""
  hosts : List String := []
deriving DecidableEq, Repr

/-- Externally observable events of a generation run. -/
inductive Event where
  | builderCA (id : String)
  | builderCert (id : String)
  | mintCall (req : CertificateRequest)
  | genkeyCall (req : CertificateRequest)
  | parseCertCall (b : Bytes)
  | parseKeyCall (b : Bytes)
  | newSignerCall
  | signCall (sr : Bytes)
  | storeWrite (n : String) (v : Bytes)
deriving DecidableEq, Repr

/-- The external certificate-authority / crypto capability, as oracles:
`initcaNew` returns (certificate, privateKey); `processRequest` returns
(signingRequest, privateKey); `sign` takes the parsed CA key, parsed CA
certificate and the signing request; `parseTemplate`/`execTemplate` model
`html/template` parse and execution with the fixed placeholder mapping
(domain, namespace, service-domain suffix). -/
structure Crypto where
  initcaNew : CertificateRequest → Except String (Bytes × Bytes)
  processRequest : CertificateRequest → Except String (Bytes × Bytes)
  parseCertificatePEM : Bytes → Except String Bytes
  parsePrivateKeyPEM : Bytes → Except String Bytes
  newSigner : Bytes → Bytes → Except String Unit
  sign : Bytes → Bytes → Bytes → Except String Bytes
  parseTemplate : String → Except String String
  execTemplate : String → String → String → String → Except String String

/-- Result of a builder call or a whole run: the returned error (if any), the
mutated registry and store, and the trace of events performed. -/
structure BuildResult where
  err : Option String
  certInfo : Registry
  secrets : Store
  trace : List Event
deriving Repr

/-- Value kinds of a configuration variable's generator (`model.ValueType`);
the engine distinguishes certificate, private key, and everything else. -/
inductive ValueType where
  | certificate
  | privatekey
  | other (s : String)
deriving DecidableEq, Repr

/-- Generator types (`model.GeneratorType`); the engine only tests for
`CACertificate`. -/
inductive GeneratorType where
  | caCertificate
  | certificate
  | other (s : String)
deriving BEq, DecidableEq, Repr

/-- The generator section of a configuration variable. -/
structure Generator where
  id : String
  valueType : ValueType
  genType : GeneratorType
  subjectNames : List String := []
  roleName : String := ""

/-- `model.ConfigurationVariable`, restricted to the fields read here. -/
structure ConfigurationVariable where
  name : String
  generator : Generator

/-- `RecordCertInfo` from ssl.go: merge one configuration variable into the
registry.  The storage-name normalization `util.ConvertNameToKey` lives in
the `util` package and is passed in as `convert`.  An unknown value type is
logged and otherwise ignored (no abort, no name update). -/
def RecordCertInfo (convert : String → String) (certInfo : Registry)
    (cv : ConfigurationVariable) : Registry :=
  let info := getInfo certInfo cv.generator.id
  let info :=
    match cv.generator.valueType with
    | .certificate => { info with certificateName := convert cv.name }
    | .privatekey => { info with privateKeyName := convert cv.name }
    | .other _ => info
  let info := { info with isAuthority := cv.generator.genType == GeneratorType.caCertificate }
  let info :=
    if cv.generator.subjectNames.length > 0 then
      { info with subjectNames := cv.generator.subjectNames }
    else info
  let info :=
    if cv.generator.roleName ≠ "" then
      { info with roleName := cv.generator.roleName }
    else info
  setInfo certInfo cv.generator.id info

/-- `createCA` from ssl.go: short-circuit on an existing private-key entry in
the store (adopting the stored key and certificate into the registry record),
else mint a new self-signed root via the capability and persist it. -/
def createCA (crypto : Crypto) (certInfo : Registry) (secrets : Store)
    (id : String) : BuildResult :=
  let info := getInfo certInfo id
  if 0 < (getBytes secrets info.privateKeyName).length then
    let info := { info with
      privateKey := getBytes secrets info.privateKeyName
      certificate := getBytes secrets info.certificateName }
    ⟨none, setInfo certInfo id info, secrets, []⟩
  else
    let req : CertificateRequest := { cn := "SCF CA" }
    match crypto.initcaNew req with
    | .error e => ⟨some ("Cannot create CA: " ++ e), certInfo, secrets, [.mintCall req]⟩
    | .ok (cert, key) =>
      let info := { info with certificate := cert, privateKey := key }
      let secrets := setBytes secrets info.privateKeyName info.privateKey
      let secrets := setBytes secrets info.certificateName info.certificate
      ⟨none, setInfo certInfo id info, secrets,
        [.mintCall req, .storeWrite info.privateKeyName info.privateKey,
         .storeWrite info.certificateName info.certificate]⟩

/-- `addHost` from ssl.go: append the name, and its wildcard form when asked. -/
def addHost (hosts : List String) (wildcard : Bool) (name : String) : List String :=
  let hosts := hosts ++ [name]
  if wildcard then hosts ++ ["*." ++ name] else hosts

/-- The subject-name loop of `createCert`: each template is parsed and
executed against the fixed placeholder mapping and added without wildcard;
a parse failure is wrapped, an execution failure is returned as is. -/
def addSubjectHosts (crypto : Crypto) (dom ns suffix id : String) :
    List String → List String → Except String (List String)
  | hosts, [] => .ok hosts
  | hosts, name :: rest =>
    match crypto.parseTemplate name with
    | .error e =>
      .error ("Can't parse subject name '" ++ name ++ "' for certificate '"
        ++ id ++ "': " ++ e)
    | .ok t =>
      match crypto.execTemplate t dom ns suffix with
      | .error e => .error e
      | .ok s => addSubjectHosts crypto dom ns suffix id (addHost hosts false s) rest

/-- The host-list derivation of `createCert` (ssl.go lines 145-184): role
hosts with wildcard pairs, the wildcard stateful-set hosts, the
service-domain-suffix pair, the substituted subject names, and the
certificate-name fallback when the list is empty. -/
def deriveHosts (crypto : Crypto) (ns dom suffix : String) (info : CertInfo)
    (id : String) : Except String (List String) :=
  let hosts : List String := []
  let hosts :=
    if info.roleName ≠ "" then
      let hosts := addHost hosts true info.roleName
      let hosts := addHost hosts true (info.roleName ++ "." ++ ns ++ ".svc")
      let hosts := addHost hosts true (info.roleName ++ "." ++ ns ++ ".svc.cluster.local")
      let pre := "*." ++ info.roleName ++ "-set"
      let hosts := addHost hosts false pre
      let hosts := addHost hosts false (pre ++ "." ++ ns ++ ".svc")
      let hosts := addHost hosts false (pre ++ "." ++ ns ++ ".svc.cluster.local")
      addHost hosts true (info.roleName ++ "." ++ suffix)
    else hosts
  match addSubjectHosts crypto dom ns suffix id hosts info.subjectNames with
  | .error e => .error e
  | .ok hosts =>
    if hosts.length = 0 then .ok [info.certificateName] else .ok hosts

/-- `createCert` from ssl.go: short-circuit (without adopting) on an existing
private-key store entry; require the default CA's material; derive the hosts;
run the key-generation, parsing, signer and signing capabilities; check the
four non-emptiness invariants; persist. -/
def createCert (crypto : Crypto) (ns dom suffix : String) (certInfo : Registry)
    (secrets : Store) (id : String) : BuildResult :=
  let info := getInfo certInfo id
  if 0 < (getBytes secrets info.privateKeyName).length then
    ⟨none, certInfo, secrets, []⟩
  else
    let caInfo := getInfo certInfo defaultCA
    if caInfo.privateKey.length = 0 ∨ caInfo.certificate.length = 0 then
      ⟨some ("CA " ++ defaultCA ++ " not found"), certInfo, secrets, []⟩
    else
      match deriveHosts crypto ns dom suffix info id with
      | .error e => ⟨some e, certInfo, secrets, []⟩
      | .ok hosts =>
        let req : CertificateRequest := { cn := hosts.headD "", hosts := hosts }
        match crypto.processRequest req with
        | .error e =>
          ⟨some ("Cannot generate cert: " ++ e), certInfo, secrets, [.genkeyCall req]⟩
        | .ok (signingReq, privKey) =>
          let info := { info with privateKey := privKey }
          match crypto.parseCertificatePEM caInfo.certificate with
          | .error e =>
            ⟨some ("Cannot parse CA cert: " ++ e), certInfo, secrets,
              [.genkeyCall req, .parseCertCall caInfo.certificate]⟩
          | .ok caCert =>
            match crypto.parsePrivateKeyPEM caInfo.privateKey with
            | .error e =>
              ⟨some ("Cannot parse CA private key: " ++ e), certInfo, secrets,
                [.genkeyCall req, .parseCertCall caInfo.certificate,
                 .parseKeyCall caInfo.privateKey]⟩
            | .ok caKey =>
              match crypto.newSigner caKey caCert with
              | .error e =>
                ⟨some ("Cannot create signer: " ++ e), certInfo, secrets,
                  [.genkeyCall req, .parseCertCall caInfo.certificate,
                   .parseKeyCall caInfo.privateKey, .newSignerCall]⟩
              | .ok _ =>
                match crypto.sign caKey caCert signingReq with
                | .error e =>
                  ⟨some ("Failed to sign cert: " ++ e), certInfo, secrets,
                    [.genkeyCall req, .parseCertCall caInfo.certificate,
                     .parseKeyCall caInfo.privateKey, .newSignerCall,
                     .signCall signingReq]⟩
                | .ok cert =>
                  let info := { info with certificate := cert }
                  let tr : List Event :=
                    [.genkeyCall req, .parseCertCall caInfo.certificate,
                     .parseKeyCall caInfo.privateKey, .newSignerCall,
                     .signCall signingReq]
                  if info.privateKeyName.length = 0 then
                    ⟨some ("Certificate " ++ id ++ " created with empty private key name"),
                      certInfo, secrets, tr⟩
                  else if info.privateKey.length = 0 then
                    ⟨some ("Certificate " ++ id ++ " created with empty private key"),
                      certInfo, secrets, tr⟩
                  else if info.certificateName.length = 0 then
                    ⟨some ("Certificate " ++ id ++ " created with empty certificate name"),
                      certInfo, secrets, tr⟩
                  else if info.certificate.length = 0 then
                    ⟨some ("Certificate " ++ id ++ " created with empty certificate"),
                      certInfo, secrets, tr⟩
                  else
                    let secrets := setBytes secrets info.privateKeyName info.privateKey
                    let secrets := setBytes secrets info.certificateName info.certificate
                    ⟨none, setInfo certInfo id info, secrets,
                      tr ++ [.storeWrite info.privateKeyName info.privateKey,
                             .storeWrite info.certificateName info.certificate]⟩

/-- The first loop of `GenerateCerts`: invoke `createCA` for every record of
the snapshot marked `isAuthority`, stopping at the first error. -/
def runCAs (crypto : Crypto) : List (String × CertInfo) → Registry → Store → BuildResult
  | [], certInfo, secrets => ⟨none, certInfo, secrets, []⟩
  | (id, info) :: rest, certInfo, secrets =>
    if info.isAuthority then
      let r := createCA crypto certInfo secrets id
      match r.err with
      | some e => ⟨some e, r.certInfo, r.secrets, .builderCA id :: r.trace⟩
      | none =>
        let r2 := runCAs crypto rest r.certInfo r.secrets
        ⟨r2.err, r2.certInfo, r2.secrets, (.builderCA id :: r.trace) ++ r2.trace⟩
    else runCAs crypto rest certInfo secrets

/-- The second loop of `GenerateCerts`: invoke `createCert` for every record
of the snapshot not marked `isAuthority`, stopping at the first error.  (The
no-names warning of the source is log output only.) -/
def runCerts (crypto : Crypto) (ns dom suffix : String) :
    List (String × CertInfo) → Registry → Store → BuildResult
  | [], certInfo, secrets => ⟨none, certInfo, secrets, []⟩
  | (id, info) :: rest, certInfo, secrets =>
    if info.isAuthority then runCerts crypto ns dom suffix rest certInfo secrets
    else
      let r := createCert crypto ns dom suffix certInfo secrets id
      match r.err with
      | some e => ⟨some e, r.certInfo, r.secrets, .builderCert id :: r.trace⟩
      | none =>
        let r2 := runCerts crypto ns dom suffix rest r.certInfo r.secrets
        ⟨r2.err, r2.certInfo, r2.secrets, (.builderCert id :: r.trace) ++ r2.trace⟩

/-- `GenerateCerts` from ssl.go: all authorities first (they are needed to
sign the certs), then all other records. -/
def GenerateCerts (crypto : Crypto) (ns dom suffix : String) (certInfo : Registry)
    (secrets : Store) : BuildResult :=
  let r1 := runCAs crypto certInfo certInfo secrets
  match r1.err with
  | some e => ⟨some e, r1.certInfo, r1.secrets, r1.trace⟩
  | none =>
    let r2 := runCerts crypto ns dom suffix r1.certInfo r1.certInfo r1.secrets
    ⟨r2.err, r2.certInfo, r2.secrets, r1.trace ++ r2.trace⟩

/-- Modelled from the spec: the Override Resolver (spec §4.3) is not part of
src/ssl/ssl.go (no update overlay reaches `GenerateCerts` there); this models
`check(record, overlay, store)` from the spec's words: both entries present
means adopt both verbatim into the store and the record and return `true`;
exactly one present is a fatal configuration error; neither present returns
`false` with nothing changed. -/
def resolveOverride (overlay : Store) (record : CertInfo) (store : Store) :
    Except String (Bool × CertInfo × Store) :=
  let keyVal := getBytes overlay record.privateKeyName
  let certVal := getBytes overlay record.certificateName
  if 0 < keyVal.length then
    if 0 < certVal.length then
      .ok (true,
        { record with privateKey := keyVal, certificate := certVal },
        setBytes (setBytes store record.privateKeyName keyVal)
          record.certificateName certVal)
    else
      .error ("override supplies key without certificate for " ++ record.certificateName)
  else if 0 < certVal.length then
    .error ("override supplies certificate without key for " ++ record.privateKeyName)
  else
    .ok (false, record, store)

/-- Modelled from the spec: `GenerateCerts` in src returns only an error; the
dirty flag of spec §4.6 reports whether any record changed, i.e. whether the
run performed any secret-store write. -/
def dirtyOf (tr : List Event) : Bool :=
  tr.any fun e => match e with | .storeWrite _ _ => true | _ => false

/-- An event marking a builder invocation (as opposed to a capability call or
a store write). -/
def isBuilderEvent : Event → Bool
  | .builderCA _ => true
  | .builderCert _ => true
  | _ => false

/-- Whether an event is a leaf certificate-builder invocation. -/
def isCertEvent : Event → Bool
  | .builderCert _ => true
  | _ => false

/-- The host list carried by an `Except` result, empty on error. -/
def hostsOf : Except String (List String) → List String
  | .ok l => l
  | .error _ => []

/-- A concrete crypto capability used to evaluate the engine on closed
inputs. -/
def testCrypto : Crypto where
  initcaNew _ := .ok ([10], [11])
  processRequest _ := .ok ([20], [21])
  parseCertificatePEM b := .ok b
  parsePrivateKeyPEM b := .ok b
  newSigner _ _ := .ok ()
  sign _ _ _ := .ok [30]
  parseTemplate t := .ok t
  execTemplate t _ _ _ := .ok t

/-! ### Association-list lemmas -/

theorem mapGet_mapSet {β : Type _} (dflt : β) (m : List (String × β))
    (k n : String) (v : β) :
    mapGet dflt (mapSet m k v) n = if n = k then v else mapGet dflt m n := by
  induction m with
  | nil =>
    by_cases h : n = k
    · subst h; simp [mapSet, mapGet]
    · simp [mapSet, mapGet, h, Ne.symm h]
  | cons p rest ih =>
    obtain ⟨k', v'⟩ := p
    by_cases hk : k' = k
    · subst hk
      by_cases h : k' = n
      · subst h; simp [mapSet, mapGet]
      · simp [mapSet, mapGet, h, Ne.symm h]
    · by_cases h : k' = n
      · subst h
        simp [mapSet, mapGet, hk, Ne.symm hk]
      · simp [mapSet, mapGet, hk, h, ih]

theorem getBytes_setBytes (s : Store) (k n : String) (v : Bytes) :
    getBytes (setBytes s k v) n = if n = k then v else getBytes s n := by
  unfold getBytes setBytes
  exact mapGet_mapSet [] s k n v

theorem getInfo_setInfo (reg : Registry) (k n : String) (v : CertInfo) :
    getInfo (setInfo reg k v) n = if n = k then v else getInfo reg n := by
  unfold getInfo setInfo
  exact mapGet_mapSet {} reg k n v

/-! ### Builder short-circuit helpers -/

/-- `createCert` returns immediately, with nothing changed and no events,
when the store already holds bytes under the record's private-key name. -/
theorem createCert_skip (crypto : Crypto) (ns dom suffix : String)
    (reg : Registry) (s : Store) (id : String)
    (h : 0 < (getBytes s (getInfo reg id).privateKeyName).length) :
    createCert crypto ns dom suffix reg s id = ⟨none, reg, s, []⟩ := by
  unfold createCert
  rw [if_pos h]

/-- `createCA` adopts the stored bytes into the registry record, with no
store change and no events, when the store already holds bytes under the
record's private-key name. -/
theorem createCA_skip (crypto : Crypto) (reg : Registry) (s : Store) (id : String)
    (h : 0 < (getBytes s (getInfo reg id).privateKeyName).length) :
    createCA crypto reg s id =
      ⟨none,
       setInfo reg id { getInfo reg id with
         privateKey := getBytes s (getInfo reg id).privateKeyName
         certificate := getBytes s (getInfo reg id).certificateName },
       s, []⟩ := by
  unfold createCA
  rw [if_pos h]

/-! ### Concrete fixtures for closed statements -/

/-- A one-record registry whose record stores under names "k" and "c". -/
def regK : Registry := [("id1", { privateKeyName := "k", certificateName := "c" })]

/-- A store holding both of the record's names. -/
def storeKC : Store := [("k", [1]), ("c", [2])]

/-- A store holding only the record's private-key name. -/
def storeKonly : Store := [("k", [1])]

/-! ### Claims -/

/-- Claim C1 (counterexample): for roleName "api", namespace "ns1", service
domain suffix "svc.example.com" and no subject-name templates, the derived
host list does not begin with the fourteen entries the claim lists: the
engine reads no replica count and emits the wildcard stateful-set hosts
(position 6 holds "*.api-set", not "api-0.api-set"). -/
theorem deriveHosts_not_per_replica :
    (hostsOf (deriveHosts testCrypto "ns1" "example.com" "svc.example.com"
      { roleName := "api", certificateName := "api-cert", privateKeyName := "api-key" }
      "api")).take 14 ≠
    ["api", "*.api", "api.ns1.svc", "*.api.ns1.svc", "api.ns1.svc.cluster.local",
     "*.api.ns1.svc.cluster.local", "api-0.api-set", "api-0.api-set.ns1.svc",
     "api-0.api-set.ns1.svc.cluster.local", "api-1.api-set", "api-1.api-set.ns1.svc",
     "api-1.api-set.ns1.svc.cluster.local", "api.svc.example.com",
     "*.api.svc.example.com"] := by decide

/-- Claim C1 (amended): for a leaf record with roleName "api", namespace
"ns1", serviceDomainSuffix "svc.example.com" and no subject-name templates,
the derived host list is exactly these eleven entries — the stateful-set
hosts are the wildcard forms "*.api-set" (and their qualified forms), one per
set, with no per-replica entries and no dependence on a replica count (the
code reads none), for every crypto capability, domain and id. -/
theorem deriveHosts_worked_example (crypto : Crypto) (dom id cn pk : String) :
    deriveHosts crypto "ns1" dom "svc.example.com"
      { roleName := "api", certificateName := cn, privateKeyName := pk } id =
    .ok ["api", "*.api", "api.ns1.svc", "*.api.ns1.svc", "api.ns1.svc.cluster.local",
     "*.api.ns1.svc.cluster.local", "*.api-set", "*.api-set.ns1.svc",
     "*.api-set.ns1.svc.cluster.local", "api.svc.example.com",
     "*.api.svc.example.com"] := by
  rfl

/-- Claim C4 (counterexample): with the record's private-key name already in
the store, `createCert` returns without adopting the stored bytes: the
record's certificate/private-key fields remain empty instead of equal to the
stored values. -/
theorem createCert_existing_no_adoption :
    ¬ (((getInfo (createCert testCrypto "ns" "dom" "suf" regK storeKC "id1").certInfo
          "id1").certificate = getBytes storeKC "c") ∧
       ((getInfo (createCert testCrypto "ns" "dom" "suf" regK storeKC "id1").certInfo
          "id1").privateKey = getBytes storeKC "k")) := by decide

/-- Claim C4 (amended): for every leaf record whose private-key name is
already present in the store, `createCert` short-circuits like `createCA`
does, but unlike `createCA` it adopts nothing: it returns with the registry,
the store and the trace unchanged, leaving the record's in-memory bytes as
they were. -/
theorem createCert_existing_shortcircuit (crypto : Crypto) (ns dom suffix : String)
    (reg : Registry) (s : Store) (id : String)
    (h : 0 < (getBytes s (getInfo reg id).privateKeyName).length) :
    createCert crypto ns dom suffix reg s id = ⟨none, reg, s, []⟩ :=
  createCert_skip crypto ns dom suffix reg s id h

/-- Witness for the amended C4 theorem at a concrete record and store. -/
theorem createCert_existing_shortcircuit_witness :
    createCert testCrypto "ns" "dom" "suf" regK storeKC "id1" =
      ⟨none, regK, storeKC, []⟩ :=
  createCert_existing_shortcircuit testCrypto "ns" "dom" "suf" regK storeKC "id1"
    (by decide)

/-- Claim C10: both builders decide solely from the store entry under the
record's private-key name; on a key-without-certificate store state,
`createCA` adopts the key and the empty certificate into the record without
any store write or capability call, and `createCert` returns without touching
the record, so the store state is preserved unchanged. -/
theorem builders_preserve_key_only_state (crypto : Crypto) (ns dom suffix : String)
    (reg : Registry) (s : Store) (id : String)
    (hk : 0 < (getBytes s (getInfo reg id).privateKeyName).length)
    (hc : getBytes s (getInfo reg id).certificateName = []) :
    createCA crypto reg s id =
      ⟨none, setInfo reg id { getInfo reg id with
         privateKey := getBytes s (getInfo reg id).privateKeyName
         certificate := [] }, s, []⟩ ∧
    createCert crypto ns dom suffix reg s id = ⟨none, reg, s, []⟩ := by
  refine ⟨?_, createCert_skip crypto ns dom suffix reg s id hk⟩
  rw [createCA_skip crypto reg s id hk, hc]

/-- Witness for the C10 theorem at a concrete key-only store. -/
theorem builders_preserve_key_only_state_witness :
    createCA testCrypto regK storeKonly "id1" =
      ⟨none, setInfo regK "id1" { getInfo regK "id1" with
         privateKey := getBytes storeKonly (getInfo regK "id1").privateKeyName
         certificate := [] }, storeKonly, []⟩ ∧
    createCert testCrypto "ns" "dom" "suf" regK storeKonly "id1" =
      ⟨none, regK, storeKonly, []⟩ :=
  builders_preserve_key_only_state testCrypto "ns" "dom" "suf" regK storeKonly "id1"
    (by decide) (by decide)

/-- Claim C8: for a leaf not short-circuited by the existence check, if the
default authority's private key or certificate bytes are empty, `createCert`
fails with the fatal "CA cacert not found" error before deriving hosts or
invoking any capability, with registry and store unchanged and an empty
event trace. -/
theorem createCert_missing_authority (crypto : Crypto) (ns dom suffix : String)
    (reg : Registry) (s : Store) (id : String)
    (hmiss : getBytes s (getInfo reg id).privateKeyName = [])
    (hca : (getInfo reg defaultCA).privateKey = [] ∨
           (getInfo reg defaultCA).certificate = []) :
    createCert crypto ns dom suffix reg s id =
      ⟨some "CA cacert not found", reg, s, []⟩ := by
  simp only [createCert]
  rw [hmiss]
  simp only [List.length_nil, lt_self_iff_false, if_false]
  rcases hca with h | h <;> rw [h, if_pos (by simp)] <;> rfl

/-- Witness for the C8 theorem at a concrete registry lacking CA material. -/
theorem createCert_missing_authority_witness :
    createCert testCrypto "ns" "dom" "suf" regK [] "id1" =
      ⟨some "CA cacert not found", regK, [], []⟩ :=
  createCert_missing_authority testCrypto "ns" "dom" "suf" regK [] "id1"
    (by decide) (Or.inl (by decide))

/-- Claim C5: the Override Resolver's pairing invariant — an overlay holding
exactly one of the record's two entries is a fatal configuration error, in
either direction, while an overlay holding neither resolves to
adopted = false with the record and store unchanged. -/
theorem resolveOverride_pairing (overlay : Store) (record : CertInfo) (store : Store) :
    (getBytes overlay record.privateKeyName ≠ [] ∧
       getBytes overlay record.certificateName = [] →
      ∃ e, resolveOverride overlay record store = .error e) ∧
    (getBytes overlay record.privateKeyName = [] ∧
       getBytes overlay record.certificateName ≠ [] →
      ∃ e, resolveOverride overlay record store = .error e) ∧
    (getBytes overlay record.privateKeyName = [] ∧
       getBytes overlay record.certificateName = [] →
      resolveOverride overlay record store = .ok (false, record, store)) := by
  unfold resolveOverride
  refine ⟨?_, ?_, ?_⟩ <;> rintro ⟨h1, h2⟩
  · rw [h2, if_pos (List.length_pos.mpr h1)]
    simp
  · rw [h1, if_neg (by simp), if_pos (List.length_pos.mpr h2)]
    simp
  · rw [h1, h2, if_neg (by simp), if_neg (by simp)]

/-- Witness for the C5 theorem: a key-only overlay errors, an empty overlay
resolves to adopted = false. -/
theorem resolveOverride_pairing_witness :
    (∃ e, resolveOverride [("k", [1])] (getInfo regK "id1") [] = .error e) ∧
    resolveOverride [] (getInfo regK "id1") storeKC =
      .ok (false, getInfo regK "id1", storeKC) :=
  ⟨(resolveOverride_pairing [("k", [1])] (getInfo regK "id1") []).1
      ⟨by decide, by decide⟩,
   (resolveOverride_pairing [] (getInfo regK "id1") storeKC).2.2
      ⟨by decide, by decide⟩⟩

/-- Claim C7: a leaf record with empty subjectNames and empty roleName
(whose private-key name is absent from the store) derives exactly the
one-element host list holding its certificateName, and that element is the
Common Name (and whole host list) of any key-generation request the builder
issues. -/
theorem createCert_empty_identity_fallback (crypto : Crypto) (ns dom suffix : String)
    (reg : Registry) (s : Store) (id : String)
    (hnames : (getInfo reg id).subjectNames = [])
    (hrole : (getInfo reg id).roleName = "")
    (hmiss : getBytes s (getInfo reg id).privateKeyName = []) :
    deriveHosts crypto ns dom suffix (getInfo reg id) id =
      .ok [(getInfo reg id).certificateName] ∧
    ∀ req, Event.genkeyCall req ∈ (createCert crypto ns dom suffix reg s id).trace →
      req = { cn := (getInfo reg id).certificateName,
              hosts := [(getInfo reg id).certificateName] } := by
  have hd : deriveHosts crypto ns dom suffix (getInfo reg id) id =
      .ok [(getInfo reg id).certificateName] := by
    simp only [deriveHosts]
    rw [hrole, hnames]
    simp [addSubjectHosts]
  refine ⟨hd, fun req hreq => ?_⟩
  simp only [createCert] at hreq
  rw [hmiss] at hreq
  simp only [List.length_nil, lt_self_iff_false, if_false] at hreq
  rw [hd] at hreq
  simp only [List.headD_cons] at hreq
  repeat' split at hreq
  all_goals simp_all

/-- Claim C6: `createCert` performs no store write on any error (the store
comes back unchanged and the trace holds no write event), and any store
write implies the call succeeded with all four of the record's persisted
name/byte fields non-empty. -/
theorem createCert_invariant_checks (crypto : Crypto) (ns dom suffix : String)
    (reg : Registry) (s : Store) (id : String)
    (err : Option String) (reg' : Registry) (s' : Store) (tr : List Event)
    (h : createCert crypto ns dom suffix reg s id = ⟨err, reg', s', tr⟩) :
    (err ≠ none → s' = s ∧ ∀ n v, Event.storeWrite n v ∉ tr) ∧
    ((∃ n v, Event.storeWrite n v ∈ tr) →
      err = none ∧
      (getInfo reg' id).privateKeyName ≠ "" ∧ (getInfo reg' id).privateKey ≠ [] ∧
      (getInfo reg' id).certificateName ≠ "" ∧ (getInfo reg' id).certificate ≠ []) := by
  simp only [createCert] at h
  repeat' split at h
  all_goals cases h
  all_goals refine ⟨fun herr => ?_, fun hw => ?_⟩
  all_goals first
    | exact absurd rfl herr
    | (refine ⟨rfl, fun n v hm => ?_⟩; simp at hm)
    | (rename_i hkn hkv hcn hcv
       refine ⟨rfl, ?_, ?_, ?_, ?_⟩ <;> simp [getInfo_setInfo]
       · intro hh; exact hkn (by simp [hh])
       · intro hh; exact hkv (by simp [hh])
       · intro hh; exact hcn (by simp [hh])
       · intro hh; exact hcv (by simp [hh]))
    | (obtain ⟨n, v, hm⟩ := hw; simp at hm)

/-! ### Phase-ordering lemmas -/

/-- `createCA` emits no leaf-builder event. -/
theorem createCA_trace_no_cert (crypto : Crypto) (reg : Registry) (s : Store)
    (id : String) (e : Event) (he : e ∈ (createCA crypto reg s id).trace) :
    isCertEvent e = false := by
  simp only [createCA] at he
  split at he
  · simp at he
  · split at he <;> simp at he
    · subst he; rfl
    · rcases he with rfl | rfl | rfl <;> rfl

/-- The authority phase emits no leaf-builder event. -/
theorem runCAs_trace_no_cert (crypto : Crypto) :
    ∀ (l : List (String × CertInfo)) (reg : Registry) (s : Store) (e : Event),
      e ∈ (runCAs crypto l reg s).trace → isCertEvent e = false := by
  intro l
  induction l with
  | nil => intro reg s e he; simp [runCAs] at he
  | cons q rest ih =>
    intro reg s e he
    obtain ⟨id, info⟩ := q
    simp only [runCAs] at he
    split at he
    · split at he
      · simp only [List.mem_cons] at he
        rcases he with rfl | hm
        · rfl
        · exact createCA_trace_no_cert crypto reg s id e hm
      · simp only [List.cons_append, List.mem_cons, List.mem_append] at he
        rcases he with rfl | hm | hm
        · rfl
        · exact createCA_trace_no_cert crypto reg s id e hm
        · exact ih _ _ _ hm
    · exact ih _ _ _ he

/-- On an error-free authority phase, every authority record of the snapshot
has its builder event in the phase trace. -/
theorem runCAs_builderCA_mem (crypto : Crypto) :
    ∀ (l : List (String × CertInfo)) (reg : Registry) (s : Store)
      (p : String × CertInfo), p ∈ l → p.2.isAuthority = true →
      (runCAs crypto l reg s).err = none →
      Event.builderCA p.1 ∈ (runCAs crypto l reg s).trace := by
  intro l
  induction l with
  | nil => intro reg s p hp _ _; simp at hp
  | cons q rest ih =>
    intro reg s p hp hauth herr
    obtain ⟨id, info⟩ := q
    rcases List.mem_cons.mp hp with heq | hp'
    · subst heq
      simp only [runCAs, if_pos hauth] at herr ⊢
      split at herr <;> simp_all
    · by_cases hA : info.isAuthority = true
      · simp only [runCAs, if_pos hA] at herr ⊢
        split at herr
        · simp at herr
        · rename_i r2eq
          simp only [List.cons_append, List.mem_cons, List.mem_append]
          exact Or.inr (Or.inr (ih _ _ p hp' hauth herr))
      · simp only [runCAs, if_neg hA] at herr ⊢
        exact ih _ _ p hp' hauth herr

/-- Claim C2: in every run, every leaf certificate-builder invocation is
strictly preceded in the event trace by the authority-builder invocation of
every authority record of the registry: all authority builder calls complete
(the authority phase finished, error-free) before any leaf builder call
executes. -/
theorem GenerateCerts_phase_ordering (crypto : Crypto) (ns dom suffix : String)
    (reg : Registry) (secrets : Store) (p : String × CertInfo)
    (hp : p ∈ reg) (hauth : p.2.isAuthority = true)
    (j : Nat) (lid : String)
    (hj : (GenerateCerts crypto ns dom suffix reg secrets).trace[j]? =
      some (Event.builderCert lid)) :
    ∃ i, i < j ∧ (GenerateCerts crypto ns dom suffix reg secrets).trace[i]? =
      some (Event.builderCA p.1) := by
  cases h1 : (runCAs crypto reg reg secrets).err with
  | some e =>
    exfalso
    simp only [GenerateCerts, h1] at hj
    have hmem := List.getElem?_mem hj
    have := runCAs_trace_no_cert crypto reg reg secrets _ hmem
    simp [isCertEvent] at this
  | none =>
    simp only [GenerateCerts, h1] at hj ⊢
    have hmem := runCAs_builderCA_mem crypto reg reg secrets p hp hauth h1
    obtain ⟨i, hi⟩ := List.getElem?_of_mem hmem
    have hilt : i < (runCAs crypto reg reg secrets).trace.length :=
      (List.getElem?_eq_some_iff.mp hi).1
    refine ⟨i, ?_, ?_⟩
    · by_contra hlt
      push_neg at hlt
      have hjlt : j < (runCAs crypto reg reg secrets).trace.length :=
        lt_of_le_of_lt hlt hilt
      rw [List.getElem?_append_left hjlt] at hj
      have := runCAs_trace_no_cert crypto reg reg secrets _ (List.getElem?_mem hj)
      simp [isCertEvent] at this
    · rw [List.getElem?_append_left hilt]
      exact hi

/-! ### Idempotence machinery: builders change only the byte fields of
registry records, and a successful run leaves every record's private-key
store entry non-empty. -/

/-- The non-byte fields of a record: storage names, flag, identity inputs. -/
def shape (a : CertInfo) : String × String × Bool × List String × String :=
  (a.privateKeyName, a.certificateName, a.isAuthority, a.subjectNames, a.roleName)

/-- The id and shape of every registry entry, in order. -/
def regShape (reg : Registry) : List (String × (String × String × Bool × List String × String)) :=
  reg.map fun p => (p.1, shape p.2)

/-- The external capability never mints an empty certificate or key. -/
def mintNonempty (crypto : Crypto) : Prop :=
  ∀ req c k, crypto.initcaNew req = .ok (c, k) → c ≠ [] ∧ k ≠ []

theorem regShape_fst (a b : Registry) (h : regShape a = regShape b) :
    a.map Prod.fst = b.map Prod.fst := by
  have ha : a.map Prod.fst = (regShape a).map Prod.fst := by
    simp [regShape, List.map_map, Function.comp]
  have hb : b.map Prod.fst = (regShape b).map Prod.fst := by
    simp [regShape, List.map_map, Function.comp]
  rw [ha, hb, h]

theorem regShape_set (reg : Registry) (id : String) (v : CertInfo)
    (hmem : id ∈ reg.map Prod.fst) (hsh : shape v = shape (getInfo reg id)) :
    regShape (setInfo reg id v) = regShape reg := by
  induction reg with
  | nil => simp at hmem
  | cons q rest ih =>
    obtain ⟨k, w⟩ := q
    by_cases hk : k = id
    · subst hk
      simp_all [setInfo, mapSet, regShape, getInfo, mapGet]
    · have hget : getInfo ((k, w) :: rest) id = getInfo rest id := by
        simp [getInfo, mapGet, hk]
      rw [hget] at hsh
      simp only [List.map_cons, List.mem_cons] at hmem
      rcases hmem with rfl | hmem'
      · exact absurd rfl hk
      · simp only [setInfo, mapSet, if_neg hk, regShape, List.map_cons, List.cons.injEq,
          true_and, and_true, eq_self_iff_true]
        exact ih hmem' hsh

theorem shape_getInfo_congr :
    ∀ (a b : Registry), regShape a = regShape b →
      ∀ id, shape (getInfo a id) = shape (getInfo b id) := by
  intro a
  induction a with
  | nil =>
    intro b h id
    cases b with
    | nil => rfl
    | cons q brest => simp [regShape] at h
  | cons p rest ih =>
    intro b h id
    cases b with
    | nil => simp [regShape] at h
    | cons q brest =>
      obtain ⟨k, v⟩ := p
      obtain ⟨k', v'⟩ := q
      simp only [regShape, List.map_cons, List.cons.injEq, Prod.mk.injEq] at h
      obtain ⟨⟨h1, h2⟩, h3⟩ := h
      subst h1
      by_cases hk : k = id
      · subst hk
        simp only [getInfo, mapGet, if_pos rfl]
        exact h2
      · simp only [getInfo, mapGet, if_neg hk]
        exact ih brest h3 id

theorem regShape_mem (a : Registry) :
    ∀ (b : Registry), regShape a = regShape b →
      ∀ p ∈ a, ∃ q ∈ b, q.1 = p.1 ∧ shape q.2 = shape p.2 := by
  induction a with
  | nil => intro b h p hp; simp at hp
  | cons r rest ih =>
    intro b h p hp
    cases b with
    | nil => simp [regShape] at h
    | cons q brest =>
      simp only [regShape, List.map_cons, List.cons.injEq, Prod.mk.injEq] at h
      obtain ⟨⟨h1, h2⟩, h3⟩ := h
      rcases List.mem_cons.mp hp with rfl | hp'
      · exact ⟨q, List.mem_cons_self q brest, h1.symm, h2.symm⟩
      · obtain ⟨q', hq', hq1, hq2⟩ := ih brest h3 p hp'
        exact ⟨q', List.mem_cons_of_mem q hq', hq1, hq2⟩

/-- `createCA` preserves every record's id and shape. -/
theorem createCA_shape (crypto : Crypto) (reg : Registry) (s : Store) (id : String)
    (hmem : id ∈ reg.map Prod.fst) :
    regShape (createCA crypto reg s id).certInfo = regShape reg := by
  simp only [createCA]
  split
  · exact regShape_set reg id _ hmem rfl
  · split
    · rfl
    · exact regShape_set reg id _ hmem rfl

/-- `createCert` preserves every record's id and shape. -/
theorem createCert_shape (crypto : Crypto) (ns dom suffix : String)
    (reg : Registry) (s : Store) (id : String)
    (hmem : id ∈ reg.map Prod.fst) :
    regShape (createCert crypto ns dom suffix reg s id).certInfo = regShape reg := by
  simp only [createCert]
  repeat' split
  all_goals first
    | rfl
    | exact regShape_set reg id _ hmem rfl

/-- After an error-free `createCA` call: non-empty store entries stay
non-empty (given a capability that mints non-empty material), and the
record's private-key store entry is non-empty. -/
theorem createCA_post (crypto : Crypto) (reg : Registry) (s : Store) (id : String)
    (reg' : Registry) (s' : Store) (tr : List Event)
    (hmint : mintNonempty crypto)
    (h : createCA crypto reg s id = ⟨none, reg', s', tr⟩) :
    (∀ x, getBytes s x ≠ [] → getBytes s' x ≠ []) ∧
    getBytes s' (getInfo reg id).privateKeyName ≠ [] := by
  simp only [createCA] at h
  split at h
  · rename_i hpos
    cases h
    exact ⟨fun x hx => hx, List.ne_nil_of_length_pos hpos⟩
  · split at h
    · cases h
    · rename_i cert key heq
      obtain ⟨hc, hk⟩ := hmint _ _ _ heq
      cases h
      constructor
      · intro x hx
        simp only [getBytes_setBytes]
        split
        · exact hc
        · split
          · exact hk
          · exact hx
      · simp only [getBytes_setBytes]
        split
        · exact hc
        · exact hk

/-- After an error-free `createCert` call: non-empty store entries stay
non-empty, and the record's private-key store entry is non-empty. -/
theorem createCert_post (crypto : Crypto) (ns dom suffix : String)
    (reg : Registry) (s : Store) (id : String)
    (reg' : Registry) (s' : Store) (tr : List Event)
    (h : createCert crypto ns dom suffix reg s id = ⟨none, reg', s', tr⟩) :
    (∀ x, getBytes s x ≠ [] → getBytes s' x ≠ []) ∧
    getBytes s' (getInfo reg id).privateKeyName ≠ [] := by
  simp only [createCert] at h
  repeat' split at h
  all_goals cases h
  · rename_i hpos
    exact ⟨fun x hx => hx, List.ne_nil_of_length_pos hpos⟩
  · rename_i hpkn hkv hcn hcv
    constructor
    · intro x hx
      simp only [getBytes_setBytes]
      split
      · intro hh; exact hcv (by simp [hh])
      · split
        · intro hh; exact hkv (by simp [hh])
        · exact hx
    · simp only [getBytes_setBytes]
      split
      · intro hh; exact hcv (by simp [hh])
      · intro hh; simp at hh; exact hkv (by simp [hh])

/-- After an error-free authority phase: shapes are preserved, non-empty
store entries stay non-empty, and every authority record of the snapshot has
a non-empty private-key store entry. -/
theorem runCAs_post (crypto : Crypto) (hmint : mintNonempty crypto) :
    ∀ (l : List (String × CertInfo)) (reg : Registry) (s : Store),
      (∀ p ∈ l, p.1 ∈ reg.map Prod.fst) →
      (runCAs crypto l reg s).err = none →
      regShape (runCAs crypto l reg s).certInfo = regShape reg ∧
      (∀ x, getBytes s x ≠ [] → getBytes (runCAs crypto l reg s).secrets x ≠ []) ∧
      (∀ p ∈ l, p.2.isAuthority = true →
        getBytes (runCAs crypto l reg s).secrets (getInfo reg p.1).privateKeyName ≠ []) := by
  intro l
  induction l with
  | nil =>
    intro reg s hkeys herr
    exact ⟨rfl, fun x hx => hx, by simp⟩
  | cons q rest ih =>
    intro reg s hkeys herr
    obtain ⟨id, info⟩ := q
    by_cases hA : info.isAuthority = true
    · have hmem : id ∈ reg.map Prod.fst := hkeys (id, info) (List.mem_cons_self _ _)
      rcases hres : createCA crypto reg s id with ⟨err0, reg0, s0, tr0⟩
      cases err0 with
      | some e =>
        exfalso
        simp only [runCAs, if_pos hA, hres] at herr
        simp at herr
      | none =>
        have hshape0 : regShape reg0 = regShape reg := by
          have hsh := createCA_shape crypto reg s id hmem
          rw [hres] at hsh
          exact hsh
        have hpost := createCA_post crypto reg s id reg0 s0 tr0 hmint hres
        have hkeys' : ∀ p ∈ rest, p.1 ∈ reg0.map Prod.fst := by
          intro p hp
          rw [regShape_fst reg0 reg hshape0]
          exact hkeys p (List.mem_cons_of_mem _ hp)
        have herr' : (runCAs crypto rest reg0 s0).err = none := by
          simp only [runCAs, if_pos hA, hres] at herr
          exact herr
        obtain ⟨ihshape, ihmono, ihmat⟩ := ih reg0 s0 hkeys' herr'
        have hrun : runCAs crypto ((id, info) :: rest) reg s =
            ⟨(runCAs crypto rest reg0 s0).err, (runCAs crypto rest reg0 s0).certInfo,
             (runCAs crypto rest reg0 s0).secrets,
             (Event.builderCA id :: tr0) ++ (runCAs crypto rest reg0 s0).trace⟩ := by
          simp only [runCAs, if_pos hA, hres]
        rw [hrun]
        refine ⟨ihshape.trans hshape0, fun x hx => ihmono x (hpost.1 x hx), ?_⟩
        intro p hp hpauth
        rcases List.mem_cons.mp hp with heq | hp'
        · subst heq
          exact ihmono _ hpost.2
        · have hm := ihmat p hp' hpauth
          have hname : (getInfo reg0 p.1).privateKeyName =
              (getInfo reg p.1).privateKeyName :=
            congrArg (fun t => t.1) (shape_getInfo_congr reg0 reg hshape0 p.1)
          rw [hname] at hm
          exact hm
    · have hrun : runCAs crypto ((id, info) :: rest) reg s = runCAs crypto rest reg s := by
        simp only [runCAs, if_neg hA]
      rw [hrun] at herr ⊢
      obtain ⟨ihshape, ihmono, ihmat⟩ :=
        ih reg s (fun p hp => hkeys p (List.mem_cons_of_mem _ hp)) herr
      refine ⟨ihshape, ihmono, ?_⟩
      intro p hp hpauth
      rcases List.mem_cons.mp hp with heq | hp'
      · subst heq
        exact absurd hpauth hA
      · exact ihmat p hp' hpauth

/-- After an error-free leaf phase: shapes are preserved, non-empty store
entries stay non-empty, and every leaf record of the snapshot has a
non-empty private-key store entry. -/
theorem runCerts_post (crypto : Crypto) (ns dom suffix : String) :
    ∀ (l : List (String × CertInfo)) (reg : Registry) (s : Store),
      (∀ p ∈ l, p.1 ∈ reg.map Prod.fst) →
      (runCerts crypto ns dom suffix l reg s).err = none →
      regShape (runCerts crypto ns dom suffix l reg s).certInfo = regShape reg ∧
      (∀ x, getBytes s x ≠ [] →
        getBytes (runCerts crypto ns dom suffix l reg s).secrets x ≠ []) ∧
      (∀ p ∈ l, p.2.isAuthority = false →
        getBytes (runCerts crypto ns dom suffix l reg s).secrets
          (getInfo reg p.1).privateKeyName ≠ []) := by
  intro l
  induction l with
  | nil =>
    intro reg s hkeys herr
    exact ⟨rfl, fun x hx => hx, by simp⟩
  | cons q rest ih =>
    intro reg s hkeys herr
    obtain ⟨id, info⟩ := q
    by_cases hA : info.isAuthority = true
    · have hrun : runCerts crypto ns dom suffix ((id, info) :: rest) reg s =
          runCerts crypto ns dom suffix rest reg s := by
        simp only [runCerts, if_pos hA]
      rw [hrun] at herr ⊢
      obtain ⟨ihshape, ihmono, ihmat⟩ :=
        ih reg s (fun p hp => hkeys p (List.mem_cons_of_mem _ hp)) herr
      refine ⟨ihshape, ihmono, ?_⟩
      intro p hp hpauth
      rcases List.mem_cons.mp hp with heq | hp'
      · subst heq
        rw [hpauth] at hA
        simp at hA
      · exact ihmat p hp' hpauth
    · have hmem : id ∈ reg.map Prod.fst := hkeys (id, info) (List.mem_cons_self _ _)
      rcases hres : createCert crypto ns dom suffix reg s id with ⟨err0, reg0, s0, tr0⟩
      cases err0 with
      | some e =>
        exfalso
        simp only [runCerts, if_neg hA, hres] at herr
        simp at herr
      | none =>
        have hshape0 : regShape reg0 = regShape reg := by
          have hsh := createCert_shape crypto ns dom suffix reg s id hmem
          rw [hres] at hsh
          exact hsh
        have hpost := createCert_post crypto ns dom suffix reg s id reg0 s0 tr0 hres
        have hkeys' : ∀ p ∈ rest, p.1 ∈ reg0.map Prod.fst := by
          intro p hp
          rw [regShape_fst reg0 reg hshape0]
          exact hkeys p (List.mem_cons_of_mem _ hp)
        have herr' : (runCerts crypto ns dom suffix rest reg0 s0).err = none := by
          simp only [runCerts, if_neg hA, hres] at herr
          exact herr
        obtain ⟨ihshape, ihmono, ihmat⟩ := ih reg0 s0 hkeys' herr'
        have hrun : runCerts crypto ns dom suffix ((id, info) :: rest) reg s =
            ⟨(runCerts crypto ns dom suffix rest reg0 s0).err,
             (runCerts crypto ns dom suffix rest reg0 s0).certInfo,
             (runCerts crypto ns dom suffix rest reg0 s0).secrets,
             (Event.builderCert id :: tr0) ++
               (runCerts crypto ns dom suffix rest reg0 s0).trace⟩ := by
          simp only [runCerts, if_neg hA, hres]
        rw [hrun]
        refine ⟨ihshape.trans hshape0, fun x hx => ihmono x (hpost.1 x hx), ?_⟩
        intro p hp hpauth
        rcases List.mem_cons.mp hp with heq | hp'
        · subst heq
          exact ihmono _ hpost.2
        · have hm := ihmat p hp' hpauth
          have hname : (getInfo reg0 p.1).privateKeyName =
              (getInfo reg p.1).privateKeyName :=
            congrArg (fun t => t.1) (shape_getInfo_congr reg0 reg hshape0 p.1)
          rw [hname] at hm
          exact hm

/-- After an error-free full run, every record of the resulting registry has
a non-empty private-key entry in the resulting store, and shapes are
preserved. -/
theorem GenerateCerts_post (crypto : Crypto) (ns dom suffix : String)
    (reg : Registry) (s : Store) (hmint : mintNonempty crypto)
    (herr : (GenerateCerts crypto ns dom suffix reg s).err = none) :
    regShape (GenerateCerts crypto ns dom suffix reg s).certInfo = regShape reg ∧
    ∀ p ∈ (GenerateCerts crypto ns dom suffix reg s).certInfo,
      getBytes (GenerateCerts crypto ns dom suffix reg s).secrets
        (getInfo (GenerateCerts crypto ns dom suffix reg s).certInfo p.1).privateKeyName
        ≠ [] := by
  cases h1 : (runCAs crypto reg reg s).err with
  | some e =>
    simp only [GenerateCerts, h1] at herr
    simp at herr
  | none =>
    have hkeys1 : ∀ p ∈ reg, p.1 ∈ reg.map Prod.fst :=
      fun p hp => List.mem_map_of_mem Prod.fst hp
    obtain ⟨shape1, mono1, mat1⟩ := runCAs_post crypto hmint reg reg s hkeys1 h1
    simp only [GenerateCerts, h1] at herr ⊢
    set reg1 := (runCAs crypto reg reg s).certInfo with hreg1
    set s1 := (runCAs crypto reg reg s).secrets with hs1
    have hkeys2 : ∀ p ∈ reg1, p.1 ∈ reg1.map Prod.fst :=
      fun p hp => List.mem_map_of_mem Prod.fst hp
    obtain ⟨shape2, mono2, mat2⟩ :=
      runCerts_post crypto ns dom suffix reg1 reg1 s1 hkeys2 herr
    set reg2 := (runCerts crypto ns dom suffix reg1 reg1 s1).certInfo with hreg2
    set s2 := (runCerts crypto ns dom suffix reg1 reg1 s1).secrets with hs2
    refine ⟨shape2.trans shape1, ?_⟩
    intro p hp
    have hname2 : (getInfo reg2 p.1).privateKeyName = (getInfo reg1 p.1).privateKeyName :=
      congrArg (fun t => t.1) (shape_getInfo_congr reg2 reg1 shape2 p.1)
    rw [hname2]
    -- find the corresponding record of the phase-2 snapshot
    obtain ⟨q1, hq1, hq1id, hq1sh⟩ := regShape_mem reg2 reg1 shape2 p hp
    cases hAq : q1.2.isAuthority with
    | true =>
      -- the record was materialized by the authority phase
      obtain ⟨q0, hq0, hq0id, hq0sh⟩ := regShape_mem reg1 reg shape1 q1 hq1
      have hA0 : q0.2.isAuthority = true := by
        have := congrArg (fun t => t.2.2.1) hq0sh
        simp only [shape] at this
        rw [this, hAq]
      have hm := mat1 q0 hq0 hA0
      rw [hq0id, hq1id] at hm
      have hname1 : (getInfo reg1 p.1).privateKeyName = (getInfo reg p.1).privateKeyName :=
        congrArg (fun t => t.1) (shape_getInfo_congr reg1 reg shape1 p.1)
      rw [hname1]
      exact mono2 _ hm
    | false =>
      have hm := mat2 q1 hq1 hAq
      rw [hq1id] at hm
      exact hm

/-- When every record of the snapshot already has a non-empty private-key
store entry, the authority phase only adopts: no error, the store untouched,
shapes preserved, and only builder events in the trace. -/
theorem runCAs_all_skip (crypto : Crypto) :
    ∀ (l : List (String × CertInfo)) (reg : Registry) (s : Store),
      (∀ p ∈ l, p.1 ∈ reg.map Prod.fst) →
      (∀ p ∈ l, getBytes s (getInfo reg p.1).privateKeyName ≠ []) →
      (runCAs crypto l reg s).err = none ∧
      (runCAs crypto l reg s).secrets = s ∧
      regShape (runCAs crypto l reg s).certInfo = regShape reg ∧
      ∀ e ∈ (runCAs crypto l reg s).trace, isBuilderEvent e = true := by
  intro l
  induction l with
  | nil =>
    intro reg s _ _
    exact ⟨rfl, rfl, rfl, by intro e he; simp [runCAs] at he⟩
  | cons q rest ih =>
    intro reg s hkeys hk
    obtain ⟨id, info⟩ := q
    by_cases hA : info.isAuthority = true
    · have hmem : id ∈ reg.map Prod.fst := hkeys (id, info) (List.mem_cons_self _ _)
      have hpos : 0 < (getBytes s (getInfo reg id).privateKeyName).length :=
        List.length_pos.mpr (hk (id, info) (List.mem_cons_self _ _))
      have hskip := createCA_skip crypto reg s id hpos
      set reg0 := setInfo reg id
        { getInfo reg id with
          privateKey := getBytes s (getInfo reg id).privateKeyName
          certificate := getBytes s (getInfo reg id).certificateName } with hreg0
      have hshape0 : regShape reg0 = regShape reg :=
        regShape_set reg id _ hmem rfl
      have hkeys' : ∀ p ∈ rest, p.1 ∈ reg0.map Prod.fst := by
        intro p hp
        rw [regShape_fst reg0 reg hshape0]
        exact hkeys p (List.mem_cons_of_mem _ hp)
      have hk' : ∀ p ∈ rest, getBytes s (getInfo reg0 p.1).privateKeyName ≠ [] := by
        intro p hp
        have hname : (getInfo reg0 p.1).privateKeyName = (getInfo reg p.1).privateKeyName :=
          congrArg (fun t => t.1) (shape_getInfo_congr reg0 reg hshape0 p.1)
        rw [hname]
        exact hk p (List.mem_cons_of_mem _ hp)
      obtain ⟨iherr, ihsec, ihshape, ihtr⟩ := ih reg0 s hkeys' hk'
      have hrun : runCAs crypto ((id, info) :: rest) reg s =
          ⟨(runCAs crypto rest reg0 s).err, (runCAs crypto rest reg0 s).certInfo,
           (runCAs crypto rest reg0 s).secrets,
           (Event.builderCA id :: []) ++ (runCAs crypto rest reg0 s).trace⟩ := by
        simp only [runCAs, if_pos hA, hskip]
      rw [hrun]
      refine ⟨iherr, ihsec, ihshape.trans hshape0, ?_⟩
      intro e he
      simp only [List.cons_append, List.nil_append, List.mem_cons] at he
      rcases he with rfl | he'
      · rfl
      · exact ihtr e he'
    · have hrun : runCAs crypto ((id, info) :: rest) reg s = runCAs crypto rest reg s := by
        simp only [runCAs, if_neg hA]
      rw [hrun]
      exact ih reg s (fun p hp => hkeys p (List.mem_cons_of_mem _ hp))
        (fun p hp => hk p (List.mem_cons_of_mem _ hp))

/-- When every record of the snapshot already has a non-empty private-key
store entry, the leaf phase changes nothing at all: no error, registry and
store untouched, only builder events in the trace. -/
theorem runCerts_all_skip (crypto : Crypto) (ns dom suffix : String) :
    ∀ (l : List (String × CertInfo)) (reg : Registry) (s : Store),
      (∀ p ∈ l, getBytes s (getInfo reg p.1).privateKeyName ≠ []) →
      (runCerts crypto ns dom suffix l reg s).err = none ∧
      (runCerts crypto ns dom suffix l reg s).certInfo = reg ∧
      (runCerts crypto ns dom suffix l reg s).secrets = s ∧
      ∀ e ∈ (runCerts crypto ns dom suffix l reg s).trace, isBuilderEvent e = true := by
  intro l
  induction l with
  | nil =>
    intro reg s _
    exact ⟨rfl, rfl, rfl, by intro e he; simp [runCerts] at he⟩
  | cons q rest ih =>
    intro reg s hk
    obtain ⟨id, info⟩ := q
    by_cases hA : info.isAuthority = true
    · have hrun : runCerts crypto ns dom suffix ((id, info) :: rest) reg s =
          runCerts crypto ns dom suffix rest reg s := by
        simp only [runCerts, if_pos hA]
      rw [hrun]
      exact ih reg s (fun p hp => hk p (List.mem_cons_of_mem _ hp))
    · have hpos : 0 < (getBytes s (getInfo reg id).privateKeyName).length :=
        List.length_pos.mpr (hk (id, info) (List.mem_cons_self _ _))
      have hskip := createCert_skip crypto ns dom suffix reg s id hpos
      obtain ⟨iherr, ihreg, ihsec, ihtr⟩ :=
        ih reg s (fun p hp => hk p (List.mem_cons_of_mem _ hp))
      have hrun : runCerts crypto ns dom suffix ((id, info) :: rest) reg s =
          ⟨(runCerts crypto ns dom suffix rest reg s).err,
           (runCerts crypto ns dom suffix rest reg s).certInfo,
           (runCerts crypto ns dom suffix rest reg s).secrets,
           (Event.builderCert id :: []) ++
             (runCerts crypto ns dom suffix rest reg s).trace⟩ := by
        simp only [runCerts, if_neg hA, hskip]
      rw [hrun]
      refine ⟨iherr, ihreg, ihsec, ?_⟩
      intro e he
      simp only [List.cons_append, List.nil_append, List.mem_cons] at he
      rcases he with rfl | he'
      · rfl
      · exact ihtr e he'

/-- A trace of builder invocations alone is not dirty. -/
theorem dirtyOf_eq_false_of_builder (tr : List Event)
    (h : ∀ e ∈ tr, isBuilderEvent e = true) : dirtyOf tr = false := by
  simp only [dirtyOf, List.any_eq_false]
  intro e he
  have hb := h e he
  cases e <;> simp_all [isBuilderEvent]

/-- A two-record registry: the default authority and one leaf. -/
def regTwoPhase : Registry :=
  [("cacert", { privateKeyName := "ca-key", certificateName := "ca-cert",
                isAuthority := true }),
   ("leaf", { privateKeyName := "k", certificateName := "c", roleName := "api" })]

/-- Claim C3 (idempotence): a second run on the registry and store produced
by a successful run (the capability minting non-empty material) succeeds,
returns the store byte-identical (the very same entries), reports
dirty = false, and its trace holds builder invocations only — so no builder
performs a store write or a capability call. -/
theorem GenerateCerts_idempotent (crypto : Crypto) (ns dom suffix : String)
    (reg : Registry) (s : Store) (reg1 : Registry) (s1 : Store) (tr1 : List Event)
    (hmint : mintNonempty crypto)
    (h1 : GenerateCerts crypto ns dom suffix reg s = ⟨none, reg1, s1, tr1⟩) :
    (GenerateCerts crypto ns dom suffix reg1 s1).err = none ∧
    (GenerateCerts crypto ns dom suffix reg1 s1).secrets = s1 ∧
    dirtyOf (GenerateCerts crypto ns dom suffix reg1 s1).trace = false ∧
    ∀ e ∈ (GenerateCerts crypto ns dom suffix reg1 s1).trace,
      isBuilderEvent e = true := by
  have herr1 : (GenerateCerts crypto ns dom suffix reg s).err = none := by rw [h1]
  obtain ⟨hshape, hens⟩ := GenerateCerts_post crypto ns dom suffix reg s hmint herr1
  have hens1 : ∀ p ∈ reg1, getBytes s1 (getInfo reg1 p.1).privateKeyName ≠ [] := by
    rw [h1] at hens
    exact hens
  have hkeysA : ∀ p ∈ reg1, p.1 ∈ reg1.map Prod.fst :=
    fun p hp => List.mem_map_of_mem Prod.fst hp
  obtain ⟨errA, secA, shapeA, trA⟩ := runCAs_all_skip crypto reg1 reg1 s1 hkeysA hens1
  set regA := (runCAs crypto reg1 reg1 s1).certInfo with hregA
  have hensA : ∀ p ∈ regA, getBytes s1 (getInfo regA p.1).privateKeyName ≠ [] := by
    intro p hp
    have hname : (getInfo regA p.1).privateKeyName = (getInfo reg1 p.1).privateKeyName :=
      congrArg (fun t => t.1) (shape_getInfo_congr regA reg1 shapeA p.1)
    rw [hname]
    obtain ⟨q, hq, hqid, hqsh⟩ := regShape_mem regA reg1 shapeA p hp
    rw [← hqid]
    exact hens1 q hq
  have hensA' : ∀ p ∈ regA, getBytes (runCAs crypto reg1 reg1 s1).secrets
      (getInfo regA p.1).privateKeyName ≠ [] := by
    rw [secA]
    exact hensA
  obtain ⟨errB, regB, secB, trB⟩ :=
    runCerts_all_skip crypto ns dom suffix regA regA
      (runCAs crypto reg1 reg1 s1).secrets hensA'
  have hgen : GenerateCerts crypto ns dom suffix reg1 s1 =
      ⟨(runCerts crypto ns dom suffix regA regA (runCAs crypto reg1 reg1 s1).secrets).err,
       (runCerts crypto ns dom suffix regA regA (runCAs crypto reg1 reg1 s1).secrets).certInfo,
       (runCerts crypto ns dom suffix regA regA (runCAs crypto reg1 reg1 s1).secrets).secrets,
       (runCAs crypto reg1 reg1 s1).trace ++
         (runCerts crypto ns dom suffix regA regA
           (runCAs crypto reg1 reg1 s1).secrets).trace⟩ := by
    simp only [GenerateCerts, errA]
  rw [hgen]
  refine ⟨errB, by rw [secB, secA], ?_, ?_⟩
  · apply dirtyOf_eq_false_of_builder
    intro e he
    rcases List.mem_append.mp he with hcase | hcase
    · exact trA e hcase
    · exact trB e hcase
  · intro e he
    rcases List.mem_append.mp he with hcase | hcase
    · exact trA e hcase
    · exact trB e hcase

/-- Witness for the C3 theorem on a concrete registry and capability. -/
theorem GenerateCerts_idempotent_witness :
    (GenerateCerts testCrypto "ns1" "dom" "suf"
        (GenerateCerts testCrypto "ns1" "dom" "suf" regTwoPhase []).certInfo
        (GenerateCerts testCrypto "ns1" "dom" "suf" regTwoPhase []).secrets).err = none ∧
    (GenerateCerts testCrypto "ns1" "dom" "suf"
        (GenerateCerts testCrypto "ns1" "dom" "suf" regTwoPhase []).certInfo
        (GenerateCerts testCrypto "ns1" "dom" "suf" regTwoPhase []).secrets).secrets =
      (GenerateCerts testCrypto "ns1" "dom" "suf" regTwoPhase []).secrets ∧
    dirtyOf (GenerateCerts testCrypto "ns1" "dom" "suf"
        (GenerateCerts testCrypto "ns1" "dom" "suf" regTwoPhase []).certInfo
        (GenerateCerts testCrypto "ns1" "dom" "suf" regTwoPhase []).secrets).trace = false ∧
    ∀ e ∈ (GenerateCerts testCrypto "ns1" "dom" "suf"
        (GenerateCerts testCrypto "ns1" "dom" "suf" regTwoPhase []).certInfo
        (GenerateCerts testCrypto "ns1" "dom" "suf" regTwoPhase []).secrets).trace,
      isBuilderEvent e = true := by
  have hmintTest : mintNonempty testCrypto := by
    intro req c k h
    simp only [testCrypto] at h
    rw [Except.ok.injEq, Prod.mk.injEq] at h
    obtain ⟨rfl, rfl⟩ := h
    exact ⟨by decide, by decide⟩
  exact GenerateCerts_idempotent testCrypto "ns1" "dom" "suf" regTwoPhase []
    (GenerateCerts testCrypto "ns1" "dom" "suf" regTwoPhase []).certInfo
    (GenerateCerts testCrypto "ns1" "dom" "suf" regTwoPhase []).secrets
    (GenerateCerts testCrypto "ns1" "dom" "suf" regTwoPhase []).trace
    hmintTest rfl

/-- Witness for the C2 theorem: in a concrete run over one authority and one
leaf, the leaf-builder event at position 4 is preceded by the authority's
builder event. -/
theorem GenerateCerts_phase_ordering_witness :
    ∃ i, i < 4 ∧ (GenerateCerts testCrypto "ns1" "dom" "suf" regTwoPhase []).trace[i]? =
      some (Event.builderCA "cacert") :=
  GenerateCerts_phase_ordering testCrypto "ns1" "dom" "suf" regTwoPhase []
    ("cacert", { privateKeyName := "ca-key", certificateName := "ca-cert",
                 isAuthority := true })
    (by decide) (by decide) 4 "leaf" (by decide)

/-- A registry holding the default authority with material, plus one leaf
record with no subject names and no role name. -/
def regWithCA : Registry :=
  [("cacert", { privateKeyName := "ca-key", certificateName := "ca-cert",
                isAuthority := true, certificate := [6], privateKey := [5] }),
   ("leaf", { privateKeyName := "k", certificateName := "c" })]

/-- A capability whose signing step returns empty certificate bytes. -/
def emptySignCrypto : Crypto := { testCrypto with sign := fun _ _ _ => .ok [] }

/-- Witness for the C6 theorem: with a capability that signs to empty bytes,
the builder errors and the store comes back untouched, write-free. -/
theorem createCert_invariant_checks_witness :
    (createCert emptySignCrypto "ns" "dom" "suf" regWithCA [] "leaf").secrets = [] ∧
    ∀ n v, Event.storeWrite n v ∉
      (createCert emptySignCrypto "ns" "dom" "suf" regWithCA [] "leaf").trace :=
  (createCert_invariant_checks emptySignCrypto "ns" "dom" "suf" regWithCA [] "leaf"
      (createCert emptySignCrypto "ns" "dom" "suf" regWithCA [] "leaf").err
      (createCert emptySignCrypto "ns" "dom" "suf" regWithCA [] "leaf").certInfo
      (createCert emptySignCrypto "ns" "dom" "suf" regWithCA [] "leaf").secrets
      (createCert emptySignCrypto "ns" "dom" "suf" regWithCA [] "leaf").trace
      rfl).1 (by decide)

/-- Witness for the C7 theorem: the identity-less leaf derives exactly its
certificate name, which is the Common Name of the key-generation request. -/
theorem createCert_empty_identity_fallback_witness :
    deriveHosts testCrypto "ns" "dom" "suf" (getInfo regWithCA "leaf") "leaf" =
      .ok [(getInfo regWithCA "leaf").certificateName] ∧
    ∀ req, Event.genkeyCall req ∈
        (createCert testCrypto "ns" "dom" "suf" regWithCA [] "leaf").trace →
      req = { cn := (getInfo regWithCA "leaf").certificateName,
              hosts := [(getInfo regWithCA "leaf").certificateName] } :=
  createCert_empty_identity_fallback testCrypto "ns" "dom" "suf" regWithCA [] "leaf"
    (by decide) (by decide) (by decide)

/-- Claim C9: one registry record call always sets `isAuthority` and the
storage name for the supplied kind; it overwrites `subjectNames`
(respectively `roleName`) only when the new value is non-empty; an unknown
kind leaves both storage names unchanged and does not abort (the merge still
returns a registry). -/
theorem RecordCertInfo_merge (convert : String → String) (reg : Registry)
    (cv : ConfigurationVariable) :
    (cv.generator.subjectNames = [] →
      (getInfo (RecordCertInfo convert reg cv) cv.generator.id).subjectNames =
        (getInfo reg cv.generator.id).subjectNames) ∧
    (cv.generator.subjectNames ≠ [] →
      (getInfo (RecordCertInfo convert reg cv) cv.generator.id).subjectNames =
        cv.generator.subjectNames) ∧
    (cv.generator.roleName = "" →
      (getInfo (RecordCertInfo convert reg cv) cv.generator.id).roleName =
        (getInfo reg cv.generator.id).roleName) ∧
    (cv.generator.roleName ≠ "" →
      (getInfo (RecordCertInfo convert reg cv) cv.generator.id).roleName =
        cv.generator.roleName) ∧
    ((getInfo (RecordCertInfo convert reg cv) cv.generator.id).isAuthority =
      (cv.generator.genType == GeneratorType.caCertificate)) ∧
    (cv.generator.valueType = ValueType.certificate →
      (getInfo (RecordCertInfo convert reg cv) cv.generator.id).certificateName =
          convert cv.name ∧
        (getInfo (RecordCertInfo convert reg cv) cv.generator.id).privateKeyName =
          (getInfo reg cv.generator.id).privateKeyName) ∧
    (cv.generator.valueType = ValueType.privatekey →
      (getInfo (RecordCertInfo convert reg cv) cv.generator.id).privateKeyName =
          convert cv.name ∧
        (getInfo (RecordCertInfo convert reg cv) cv.generator.id).certificateName =
          (getInfo reg cv.generator.id).certificateName) ∧
    (∀ str, cv.generator.valueType = ValueType.other str →
      (getInfo (RecordCertInfo convert reg cv) cv.generator.id).certificateName =
          (getInfo reg cv.generator.id).certificateName ∧
        (getInfo (RecordCertInfo convert reg cv) cv.generator.id).privateKeyName =
          (getInfo reg cv.generator.id).privateKeyName) := by
  obtain ⟨name, gid, vt, gt, sn, rn⟩ := cv
  simp only [RecordCertInfo]
  cases vt <;> by_cases hs : sn = [] <;> by_cases hr : rn = "" <;>
    simp_all [getInfo_setInfo, List.length_pos]

/-- Witness for the C9 theorem: an unknown value kind leaves both storage
names of the existing record unchanged. -/
theorem RecordCertInfo_merge_witness :
    (getInfo (RecordCertInfo (fun n => n) regK
        { name := "NAME",
          generator := { id := "id1", valueType := ValueType.other "bogus",
                         genType := GeneratorType.certificate } }) "id1").certificateName =
      (getInfo regK "id1").certificateName ∧
    (getInfo (RecordCertInfo (fun n => n) regK
        { name := "NAME",
          generator := { id := "id1", valueType := ValueType.other "bogus",
                         genType := GeneratorType.certificate } }) "id1").privateKeyName =
      (getInfo regK "id1").privateKeyName :=
  (RecordCertInfo_merge (fun n => n) regK
      { name := "NAME",
        generator := { id := "id1", valueType := ValueType.other "bogus",
                       genType := GeneratorType.certificate } }).2.2.2.2.2.2.2
    "bogus" rfl

end ScfSsl
